import Mathlib

/-!
Verification of the RSA file-signing core (`src/rsa/main.c`).

A shallow embedding of the cryptographic core of the signing utility:
the from-scratch SHA3-256 (Keccak-f[1600] sponge), the MGF1 mask
generator, the Miller–Rabin primality tester, the prime and RSA
key-pair generators, the OAEP encode/decode pair, and the sign/verify
pipeline built on them.

Bytes are modelled as natural numbers (the C code works on
`unsigned char`, always `< 256`); 64-bit lanes are naturals reduced
`% 2^64` at each operation that can overflow.  Randomness (GMP's
`gmp_randstate_t`, `/dev/urandom`) is modelled by explicit oracle
parameters: a drawn seed becomes a function argument, and the
probabilistic generators become relations over the possible draws.
Fallible C functions returning `0`/`1` with out-parameters become
`Option`-returning functions.

Recursions that a proof witness must evaluate inside the kernel are
written with an explicit structural fuel parameter (the fuel is always
large enough, as the accompanying lemmas show), so every definition
reduces by `decide`/`rfl`.
-/

namespace RsaSign

/-- 64-bit left rotation, from `rotl64` in the C source:
`(x << n) | (x >> (64 - n))` on `uint64_t`. -/
def rotl64 (x n : ℕ) : ℕ :=
  (((x <<< n) % 2 ^ 64) ||| (x >>> (64 - n))) % 2 ^ 64

/-- Fuel-driven modular exponentiation by repeated squaring.  This
models GMP's `mpz_powm` (an external collaborator of the C core,
specified as `b^e mod n`); the fuel makes it kernel-reducible. -/
def powModAux : ℕ → ℕ → ℕ → ℕ → ℕ
  | 0, _, _, n => 1 % n
  | f + 1, b, e, n =>
    if e = 0 then 1 % n
    else
      let h := powModAux f b (e / 2) n
      if e % 2 = 0 then h * h % n else h * h % n * b % n

/-- `powMod b e n = b ^ e % n`, computed by binary exponentiation. -/
def powMod (b e n : ℕ) : ℕ := powModAux (e + 1) b e n

/-- The `while (mpz_even_p(d)) { d /= 2; r++; }` loop of
`miller_rabin_test`, with structural fuel: returns `(r, d)` with the
odd part and 2-adic valuation of the input. -/
def oddSplitAux : ℕ → ℕ → ℕ × ℕ
  | 0, m => (0, m)
  | f + 1, m =>
    if m % 2 = 0 ∧ m ≠ 0 then
      let p := oddSplitAux f (m / 2)
      (p.1 + 1, p.2)
    else (0, m)

/-- Decompose `m` as `2^r * d` with `d` odd (for `m > 0`). -/
def oddSplit (m : ℕ) : ℕ × ℕ := oddSplitAux m m

/-- Fuel-driven digit count of `n` in base `b` (`b ≥ 2`): models GMP's
`mpz_sizeinbase`, which returns `1` for `0`. -/
def sizeInBaseAux (b : ℕ) : ℕ → ℕ → ℕ
  | 0, _ => 1
  | f + 1, n => if n < b then 1 else 1 + sizeInBaseAux b f (n / b)

/-- `mpz_sizeinbase (n, 256)`: number of base-256 digits of `n`. -/
def sizeInBase256 (n : ℕ) : ℕ := sizeInBaseAux 256 n n

/-- `mpz_sizeinbase (n, 2)`: bit length of `n` (with `size 0 = 1`). -/
def sizeInBase2 (n : ℕ) : ℕ := sizeInBaseAux 2 n n

/-- Fuel-driven big-endian byte export (GMP's `mpz_export` with
order `1`, size `1`): most significant byte first, no leading zero
bytes, and the empty list for `0`. -/
def natToBytesAux : ℕ → ℕ → List ℕ
  | 0, _ => []
  | f + 1, n => if n = 0 then [] else natToBytesAux f (n / 256) ++ [n % 256]

/-- Big-endian minimal byte representation of a natural number. -/
def natToBytes (n : ℕ) : List ℕ := natToBytesAux n n

/-- Big-endian byte import (GMP's `mpz_import` with order `1`,
size `1`): interpret a byte list as a base-256 numeral. -/
def beBytesToNat (l : List ℕ) : ℕ := l.foldl (fun a b => a * 256 + b) 0

/-- Left-pad a byte string with zero bytes to length `k`; models the
`calloc(k, 1)` + `memcpy(final + (k - len), ...)` step of
`verify_file_menu`. -/
def leftPad (k : ℕ) (l : List ℕ) : List ℕ := List.replicate (k - l.length) 0 ++ l

/-! ## SHA3-256 (Keccak-f[1600]) -/

/-- The 24 Keccak round constants from the C source (the same values
as its hexadecimal table, written in decimal). -/
def keccakRoundConstants : List ℕ :=
  [1, 32898, 9223372036854808714] ++
  [9223372039002292224, 32907, 2147483649] ++
  [9223372039002292353, 9223372036854808585, 138] ++
  [136, 2147516425, 2147483658] ++
  [2147516555, 9223372036854775947, 9223372036854808713] ++
  [9223372036854808579, 9223372036854808578, 9223372036854775936] ++
  [32778, 9223372039002259466, 9223372039002292353] ++
  [9223372036854808704, 2147483649, 9223372039002292232]

/-- The per-lane rotation offset table `rho_offsets` from the C source
(row by row). -/
def rhoOffsets : List ℕ :=
  [0, 1, 62, 28, 27] ++ [36, 44, 6, 55, 20] ++ [3, 10, 43, 25, 39] ++
  [41, 45, 15, 21, 8] ++ [18, 2, 61, 56, 14]

/-- θ step: column parities `C`, differences `D`, XORed into every lane. -/
def keccakTheta (st : List ℕ) : List ℕ :=
  let C := (List.range 5).map fun x =>
    st.getD x 0 ^^^ st.getD (x + 5) 0 ^^^ st.getD (x + 10) 0 ^^^
      st.getD (x + 15) 0 ^^^ st.getD (x + 20) 0
  let D := (List.range 5).map fun x =>
    C.getD ((x + 4) % 5) 0 ^^^ rotl64 (C.getD ((x + 1) % 5) 0) 1
  (List.range 25).map fun i => st.getD i 0 ^^^ D.getD (i % 5) 0

/-- ρ and π steps, exactly as the C loop: walk `t = 0..23` through
lane index `((t+1)(t+2)/2) % 25`, rotating the carried lane by the
offset-table entry of the written position. -/
def keccakRhoPi (st : List ℕ) : List ℕ :=
  ((List.range 24).foldl
    (fun (p : List ℕ × ℕ) t =>
      let x := (t + 1) * (t + 2) / 2 % 25
      let temp := p.1.getD x 0
      (p.1.set x (rotl64 p.2 (rhoOffsets.getD x 0)), temp))
    (st, st.getD 1 0)).1

/-- χ step: rowwise `a ^ (~b & c)`, reading each full row before
writing (the C code copies the row into `temp` first). -/
def keccakChi (st : List ℕ) : List ℕ :=
  (List.range 25).map fun i =>
    let y := i / 5
    let x := i % 5
    st.getD (y * 5 + x) 0 ^^^
      (((2 ^ 64 - 1) ^^^ st.getD (y * 5 + (x + 1) % 5) 0) &&&
        st.getD (y * 5 + (x + 2) % 5) 0)

/-- ι step: XOR the round constant into lane 0. -/
def keccakIota (st : List ℕ) (rc : ℕ) : List ℕ :=
  st.set 0 (st.getD 0 0 ^^^ rc)

/-- One Keccak-f[1600] permutation: 24 rounds of θ, ρπ, χ, ι. -/
def keccakF (st : List ℕ) : List ℕ :=
  keccakRoundConstants.foldl
    (fun s rc => keccakIota (keccakChi (keccakRhoPi (keccakTheta s))) rc) st

/-- The padding step of `sha3_256`, byte for byte as the C code:
`padded_len` stays at `input_len` when `input_len % 136 = 135`
(otherwise it is rounded up to the next multiple of 136), `0x06` is
stored at index `input_len` (a no-op when that index is out of range,
as the C write there is out of bounds), and `0x80` is ORed into the
final byte. -/
def sha3Pad (input : List ℕ) : List ℕ :=
  let len := input.length
  let paddedLen := if len % 136 = 135 then len else (len / 136 + 1) * 136
  let buf := (input ++ List.replicate (paddedLen - len) 0).set len 0x06
  buf.set (paddedLen - 1) (buf.getD (paddedLen - 1) 0 ||| 0x80)

/-- Assemble the 64-bit word of block byte offset `off`
(little-endian; out-of-range bytes contribute 0, matching the
bounds check in the C absorption loop). -/
def wordAt (l : List ℕ) (off : ℕ) : ℕ :=
  (List.range 8).foldl (fun w k => w ||| (l.getD (off + k) 0 <<< (k * 8))) 0

/-- XOR one 136-byte block (starting at byte `base`) into the first 17
lanes of the state. -/
def absorbBlock (st : List ℕ) (padded : List ℕ) (base : ℕ) : List ℕ :=
  (List.range 17).foldl
    (fun s j => s.set j (s.getD j 0 ^^^ wordAt padded (base + j * 8))) st

/-- The absorption loop: for each rate-sized chunk of the padded
input, XOR it in and permute. -/
def absorb (padded : List ℕ) : List ℕ :=
  (List.range ((padded.length + 135) / 136)).foldl
    (fun st i => keccakF (absorbBlock st padded (i * 136))) (List.replicate 25 0)

/-- `sha3_256` from the C source: pad, absorb, and squeeze the first
32 bytes of the lane array in little-endian order. -/
def sha3_256 (input : List ℕ) : List ℕ :=
  let st := absorb (sha3Pad input)
  (List.range 32).map fun i => (st.getD (i / 8) 0 >>> (i % 8 * 8)) &&& 0xFF

/-! ## MGF1 -/

/-- 4-byte big-endian counter encoding used by `mgf1`. -/
def counterBytes (i : ℕ) : List ℕ :=
  [(i >>> 24) &&& 0xFF, (i >>> 16) &&& 0xFF, (i >>> 8) &&& 0xFF, i &&& 0xFF]

/-- `mgf1` from the C source: concatenate `sha3_256 (seed ‖ counter i)`
for `i = 0, 1, …` until at least `maskLen` bytes are produced, then
truncate to `maskLen`. -/
def mgf1 (seed : List ℕ) (maskLen : ℕ) : List ℕ :=
  (((List.range ((maskLen + 31) / 32)).map
    fun i => sha3_256 (seed ++ counterBytes i)).flatten).take maskLen

/-! ## OAEP encode / decode -/

/-- The body of `rsa_oaep_pad` after the length check: build
`DB = lHash ‖ PS ‖ 0x01 ‖ M`, mask it with `MGF1(seed)`, mask the
seed with `MGF1(maskedDB)`, and return `0x00 ‖ maskedSeed ‖ maskedDB`.
The drawn 32-byte random seed is the explicit `seed` argument.
(`psLen` uses truncated subtraction: this agrees with the C `size_t`
arithmetic whenever `k ≥ len(M) + 66`; for smaller accepted `k` —
possible only through the 32-bit wraparound of the length check, see
`rsa_oaep_pad` — the C `ps_len` underflows and the code's behaviour
is undefined.) -/
def padEM (message : List ℕ) (k : ℕ) (seed : List ℕ) : List ℕ :=
  let lHash := sha3_256 []
  let psLen := k - message.length - 2 * 32 - 2
  let db := lHash ++ List.replicate psLen 0 ++ [0x01] ++ message
  let dbMask := mgf1 seed db.length
  let maskedDB := List.zipWith (· ^^^ ·) db dbMask
  let seedMask := mgf1 maskedDB 32
  let maskedSeed := List.zipWith (· ^^^ ·) seed seedMask
  0x00 :: (maskedSeed ++ maskedDB)

/-- `rsa_oaep_pad`: the C length check `message_len > k - 2*h_len - 2`
compares `size_t` against `unsigned int` arithmetic, so `k - 66` is
computed modulo `2^32` (for `k < 66` it wraps around instead of being
negative).  Failure (`return 0`) is `none`. -/
def rsa_oaep_pad (message : List ℕ) (k : ℕ) (seed : List ℕ) : Option (List ℕ) :=
  if message.length > (k % 2 ^ 32 + (2 ^ 32 - 66)) % 2 ^ 32 then none
  else some (padEM message k seed)

/-- The separator scan of `rsa_oaep_unpad` on the data block past the
label hash: skip `0x00` bytes; succeed on `0x01` with the rest as the
message; fail on any other byte or on running off the end. -/
def sepScan : List ℕ → Option (List ℕ)
  | [] => none
  | b :: rest => if b = 0 then sepScan rest else if b = 1 then some rest else none

/-- The unmasking pipeline of `rsa_oaep_unpad`: recover the data block
`DB` from an encoded message (`maskedSeed` = bytes 1..32, `maskedDB` =
the `k - 33` bytes from offset 33). -/
def recoverDB (em : List ℕ) (k : ℕ) : List ℕ :=
  let maskedSeed := (em.drop 1).take 32
  let maskedDB := (em.drop 33).take (k - 33)
  let seedMask := mgf1 maskedDB 32
  let seed := List.zipWith (· ^^^ ·) maskedSeed seedMask
  let dbMask := mgf1 seed (k - 33)
  List.zipWith (· ^^^ ·) maskedDB dbMask

/-- `rsa_oaep_unpad` from the C source: reject `k < 2*hLen + 2`,
unmask, compare the first 32 bytes of `DB` with `lHash`, then scan for
the `0x01` separator. -/
def rsa_oaep_unpad (em : List ℕ) (k : ℕ) : Option (List ℕ) :=
  if k < 2 * 32 + 2 then none
  else
    let db := recoverDB em k
    if db.take 32 = sha3_256 [] then sepScan (db.drop 32) else none

/-! ## Miller–Rabin, prime generation, key generation -/

/-- The inner squaring loop of one Miller–Rabin round: square `x` up
to `count` times, succeeding as soon as an intermediate equals `n-1`. -/
def mrSquares : ℕ → ℕ → ℕ → Bool
  | 0, _, _ => false
  | c + 1, x, n =>
    let x2 := x * x % n
    if x2 = n - 1 then true else mrSquares c x2 n

/-- Iterated modular squaring (the sequence scanned by `mrSquares`),
used to state what the squaring loop computes. -/
def sqIter : ℕ → ℕ → ℕ → ℕ
  | 0, x, _ => x
  | j + 1, x, n => sqIter j (x * x % n) n

/-- One Miller–Rabin round with base `a`, where `n - 1 = 2^r * d`:
inconclusive (round passes) if `a^d ∈ {1, n-1}` or some of the `r-1`
squarings hits `n-1`. -/
def mrRound (n r d a : ℕ) : Bool :=
  let x := powMod a d n
  if x = 1 ∨ x = n - 1 then true else mrSquares (r - 1) x n

/-- `miller_rabin_test` from the C source, with the random base draws
passed as the explicit list `as` (one entry per iteration; each drawn
by `mpz_urandomm` below `n - 1` and clamped up to `2`). -/
def miller_rabin_test (n : ℕ) (as : List ℕ) : Bool :=
  if n = 2 ∨ n = 3 then true
  else if n ≤ 1 ∨ n % 2 = 0 then false
  else
    let rd := oddSplit (n - 1)
    as.all fun v => mrRound n rd.1 rd.2 (if v < 2 then 2 else v)

/-- The possible outputs of `generate_prime bits`: some drawn
`bits`-bit value, with top and bottom bits forced, that passed the
40-iteration Miller–Rabin test for some sequence of base draws and
whose bit length equals `bits` (the loop's exit condition). -/
def generate_prime_rel (bits p : ℕ) : Prop :=
  ∃ v as, v < 2 ^ bits ∧ as.length = 40 ∧ (∀ a ∈ as, a < p - 1) ∧
    p = v ||| 2 ^ (bits - 1) ||| 1 ∧
    miller_rabin_test p as = true ∧ sizeInBase2 p = bits

/-- The possible outputs of `generate_rsa_keys bits`: two distinct
generated primes `p ≠ q` of `bits/2` bits each, `n = p*q`,
`e = 65537` with `gcd(e, φ) = 1`, and `d` the modular inverse of `e`
modulo `φ = (p-1)(q-1)` (as returned by `mpz_invert`: the `gcd ≠ 1`
and no-inverse branches restart the whole generation, so they never
contribute outputs). -/
def generate_rsa_keys_rel (bits n e d : ℕ) : Prop :=
  ∃ p q, generate_prime_rel (bits / 2) p ∧ generate_prime_rel (bits / 2) q ∧
    p ≠ q ∧ n = p * q ∧ e = 65537 ∧
    Nat.gcd e ((p - 1) * (q - 1)) = 1 ∧
    d < (p - 1) * (q - 1) ∧ e * d ≡ 1 [MOD (p - 1) * (q - 1)]

/-! ## Concrete key material used by the end-to-end witnesses

Two Proth-form primes (so their Lucas certificates need only the
factor lists `{2, 7}` and `{2, 997}` of `p - 1`), large enough that
the 793-bit modulus has 100 bytes, as the OAEP-of-SHA3 pipeline
requires at least 98. -/

def certP : ℕ := 7 * 2 ^ 390 + 1

def certQ : ℕ := 997 * 2 ^ 390 + 1

/-- The inverse of 65537 modulo `(certP - 1) * (certQ - 1)`. -/
def certD : ℕ := 8661114964953167689471314491787632101310254634264697220181170011507442755272679041962325264205311039914302559497055489898945770428644811162906793723362329299663703358269346843157929682225180826992021192496002870092183010607366321301553153

/-! ## Arithmetic helper lemmas -/

theorem powModAux_eq : ∀ f e, e < 2 ^ f → ∀ b n, powModAux f b e n = b ^ e % n := by
  intro f
  induction f with
  | zero =>
    intro e he b n
    interval_cases e
    simp [powModAux]
  | succ f ih =>
    intro e he b n
    by_cases h0 : e = 0
    · simp [powModAux, h0]
    · have hlt : e / 2 < 2 ^ f := by
        have := Nat.div_lt_iff_lt_mul (k := 2) (x := e) (y := 2 ^ f) (by norm_num)
        rw [this]
        calc e < 2 ^ (f + 1) := he
          _ = 2 ^ f * 2 := by ring
      have hrec := ih (e / 2) hlt b n
      have hA : b ^ (e / 2) % n ≡ b ^ (e / 2) [MOD n] := Nat.mod_modEq _ _
      rcases Nat.mod_two_eq_zero_or_one e with hm | hm
      · have he2 : e = e / 2 + e / 2 := by omega
        simp only [powModAux, if_neg h0, if_pos hm, hrec]
        have hstep : b ^ (e / 2) % n * (b ^ (e / 2) % n) ≡ b ^ e [MOD n] := by
          calc b ^ (e / 2) % n * (b ^ (e / 2) % n)
              ≡ b ^ (e / 2) * b ^ (e / 2) [MOD n] := hA.mul hA
            _ = b ^ e := by rw [← pow_add, ← he2]
        exact hstep
      · have he2 : e = e / 2 + e / 2 + 1 := by omega
        have hm0 : ¬ e % 2 = 0 := by omega
        simp only [powModAux, if_neg h0, if_neg hm0, hrec]
        have hstep : b ^ (e / 2) % n * (b ^ (e / 2) % n) % n * b ≡ b ^ e [MOD n] := by
          calc b ^ (e / 2) % n * (b ^ (e / 2) % n) % n * b
              ≡ b ^ (e / 2) % n * (b ^ (e / 2) % n) * b [MOD n] :=
                (Nat.mod_modEq _ _).mul_right b
            _ ≡ b ^ (e / 2) * b ^ (e / 2) * b [MOD n] := (hA.mul hA).mul_right b
            _ = b ^ (e / 2 + e / 2 + 1) := by rw [pow_succ, pow_add]
            _ = b ^ e := by rw [← he2]
        exact hstep

theorem powMod_eq (b e n : ℕ) : powMod b e n = b ^ e % n :=
  powModAux_eq (e + 1) e
    (lt_of_lt_of_le (Nat.lt_two_pow e) (Nat.pow_le_pow_right (by norm_num) (Nat.le_succ e))) b n

theorem powMod_lt (b e : ℕ) {n : ℕ} (hn : 0 < n) : powMod b e n < n := by
  rw [powMod_eq]; exact Nat.mod_lt _ hn

theorem oddSplitAux_spec : ∀ f m, 0 < m → m ≤ f →
    (oddSplitAux f m).2 % 2 = 1 ∧ m = 2 ^ (oddSplitAux f m).1 * (oddSplitAux f m).2 := by
  intro f
  induction f with
  | zero => intro m h1 h2; omega
  | succ f ih =>
    intro m h1 h2
    by_cases he : m % 2 = 0
    · have hcond : m % 2 = 0 ∧ m ≠ 0 := ⟨he, by omega⟩
      have hm2 : 0 < m / 2 := by omega
      have hm2f : m / 2 ≤ f := by omega
      obtain ⟨ho, hv⟩ := ih (m / 2) hm2 hm2f
      simp only [oddSplitAux, if_pos hcond]
      refine ⟨ho, ?_⟩
      have : m = 2 * (m / 2) := by omega
      calc m = 2 * (m / 2) := this
        _ = 2 * (2 ^ (oddSplitAux f (m / 2)).1 * (oddSplitAux f (m / 2)).2) := by rw [← hv]
        _ = 2 ^ ((oddSplitAux f (m / 2)).1 + 1) * (oddSplitAux f (m / 2)).2 := by ring
    · have hcond : ¬ (m % 2 = 0 ∧ m ≠ 0) := by tauto
      simp only [oddSplitAux, if_neg hcond]
      exact ⟨by omega, by simp⟩

theorem oddSplit_spec {m : ℕ} (h : 0 < m) :
    (oddSplit m).2 % 2 = 1 ∧ m = 2 ^ (oddSplit m).1 * (oddSplit m).2 :=
  oddSplitAux_spec m m h le_rfl

theorem sizeInBaseAux_spec (b : ℕ) (hb : 2 ≤ b) : ∀ f n, 1 ≤ n → n ≤ f →
    b ^ (sizeInBaseAux b f n - 1) ≤ n ∧ n < b ^ sizeInBaseAux b f n := by
  intro f
  induction f with
  | zero => intro n h1 h2; omega
  | succ f ih =>
    intro n h1 h2
    by_cases hs : n < b
    · simp only [sizeInBaseAux, if_pos hs]
      exact ⟨by simpa using h1, by simpa using hs⟩
    · push_neg at hs
      have hn1 : 1 ≤ n / b := (Nat.one_le_div_iff (by omega)).mpr hs
      have hnf : n / b ≤ f := by
        have : n / b < n := Nat.div_lt_self (by omega) (by omega)
        omega
      obtain ⟨hlo, hhi⟩ := ih (n / b) hn1 hnf
      simp only [sizeInBaseAux, if_neg (by omega : ¬ n < b)]
      set s := sizeInBaseAux b f (n / b) with hsdef
      have hs1 : 1 ≤ s := by
        by_contra hc
        push_neg at hc
        interval_cases s
        · simp at hhi; omega
      constructor
      · have : b ^ s = b * b ^ (s - 1) := by
          conv_lhs => rw [show s = 1 + (s - 1) by omega]
          rw [pow_add, pow_one]
        rw [show 1 + s - 1 = s by omega, this]
        calc b * b ^ (s - 1) ≤ b * (n / b) := Nat.mul_le_mul_left b hlo
          _ ≤ n := Nat.mul_div_le n b
      · rw [show 1 + s = s + 1 by omega, pow_succ]
        exact (Nat.div_lt_iff_lt_mul (by omega)).mp hhi

theorem sizeInBase256_bounds {n : ℕ} (h : 1 ≤ n) :
    256 ^ (sizeInBase256 n - 1) ≤ n ∧ n < 256 ^ sizeInBase256 n :=
  sizeInBaseAux_spec 256 (by norm_num) n n h le_rfl

theorem sizeInBase2_bounds {n : ℕ} (h : 1 ≤ n) :
    2 ^ (sizeInBase2 n - 1) ≤ n ∧ n < 2 ^ sizeInBase2 n :=
  sizeInBaseAux_spec 2 (by norm_num) n n h le_rfl

theorem sizeInBase2_eq_of_bounds {n s : ℕ} (h1 : 2 ^ (s - 1) ≤ n) (h2 : n < 2 ^ s)
    (hs : 1 ≤ s) : sizeInBase2 n = s := by
  have hn : 1 ≤ n := le_trans (Nat.one_le_two_pow) h1
  obtain ⟨hlo, hhi⟩ := sizeInBase2_bounds hn
  set t := sizeInBase2 n with ht
  have ht1 : 1 ≤ t := by
    by_contra hc
    push_neg at hc
    interval_cases t
    · simp at hhi; omega
  by_contra hne
  rcases Nat.lt_or_ge t s with hlt | hge
  · have : n < 2 ^ (s - 1) := lt_of_lt_of_le hhi (Nat.pow_le_pow_right (by norm_num) (by omega))
    omega
  · have hgt : s < t := by omega
    have : n < 2 ^ (t - 1) := lt_of_lt_of_le h2 (Nat.pow_le_pow_right (by norm_num) (by omega))
    omega

/-! ## Byte-string / integer conversion lemmas -/

theorem beBytesToNat_foldl (i : ℕ) : ∀ l : List ℕ,
    l.foldl (fun a b => a * 256 + b) i = i * 256 ^ l.length + beBytesToNat l := by
  intro l
  induction l generalizing i with
  | nil => simp [beBytesToNat]
  | cons b t ih =>
    simp only [List.foldl_cons, List.length_cons, beBytesToNat]
    rw [ih (i * 256 + b), show (0:ℕ) * 256 + b = b by ring, ih b]
    ring

theorem beBytesToNat_cons (b : ℕ) (t : List ℕ) :
    beBytesToNat (b :: t) = b * 256 ^ t.length + beBytesToNat t := by
  simpa [beBytesToNat] using beBytesToNat_foldl b t

theorem beBytesToNat_append (l₁ l₂ : List ℕ) :
    beBytesToNat (l₁ ++ l₂) = beBytesToNat l₁ * 256 ^ l₂.length + beBytesToNat l₂ := by
  simp only [beBytesToNat, List.foldl_append]
  exact beBytesToNat_foldl _ l₂

theorem beBytesToNat_lt {l : List ℕ} (h : ∀ b ∈ l, b < 256) :
    beBytesToNat l < 256 ^ l.length := by
  induction l with
  | nil => simp [beBytesToNat]
  | cons b t ih =>
    rw [beBytesToNat_cons]
    have hb : b < 256 := h b (List.mem_cons_self b t)
    have ht : beBytesToNat t < 256 ^ t.length := ih fun x hx => h x (List.mem_cons_of_mem b hx)
    have : b * 256 ^ t.length + beBytesToNat t < (b + 1) * 256 ^ t.length := by
      have := Nat.add_lt_add_left ht (b * 256 ^ t.length)
      calc b * 256 ^ t.length + beBytesToNat t
          < b * 256 ^ t.length + 256 ^ t.length := this
        _ = (b + 1) * 256 ^ t.length := by ring
    calc b * 256 ^ t.length + beBytesToNat t < (b + 1) * 256 ^ t.length := this
      _ ≤ 256 * 256 ^ t.length := Nat.mul_le_mul_right _ (by omega)
      _ = 256 ^ (b :: t).length := by rw [List.length_cons, pow_succ, mul_comm]

theorem beBytesToNat_replicate_zero (j : ℕ) : beBytesToNat (List.replicate j 0) = 0 := by
  induction j with
  | zero => simp [beBytesToNat]
  | succ j ih =>
    rw [List.replicate_succ, beBytesToNat_cons, ih]
    simp

/-- Two byte strings of equal length, with all entries below 256 and
the same big-endian value, are equal. -/
theorem beBytesToNat_injOn : ∀ l₁ l₂ : List ℕ, l₁.length = l₂.length →
    (∀ b ∈ l₁, b < 256) → (∀ b ∈ l₂, b < 256) →
    beBytesToNat l₁ = beBytesToNat l₂ → l₁ = l₂ := by
  intro l₁
  induction l₁ with
  | nil =>
    intro l₂ hlen _ _ _
    cases l₂ with
    | nil => rfl
    | cons b t => simp at hlen
  | cons a t ih =>
    intro l₂ hlen h₁ h₂ hval
    cases l₂ with
    | nil => simp at hlen
    | cons a' t' =>
      have hlt : t.length = t'.length := by simpa using hlen
      rw [beBytesToNat_cons, beBytesToNat_cons, hlt] at hval
      have hv : beBytesToNat t < 256 ^ t'.length := by
        rw [← hlt]
        exact beBytesToNat_lt fun x hx => h₁ x (List.mem_cons_of_mem a hx)
      have hv' : beBytesToNat t' < 256 ^ t'.length :=
        beBytesToNat_lt fun x hx => h₂ x (List.mem_cons_of_mem a' hx)
      have hB : 0 < 256 ^ t'.length := Nat.pos_pow_of_pos _ (by norm_num)
      have hdiv : a = a' := by
        have hda : (a * 256 ^ t'.length + beBytesToNat t) / 256 ^ t'.length = a := by
          rw [mul_comm, Nat.mul_add_div hB, Nat.div_eq_of_lt hv]
          omega
        have hda' : (a' * 256 ^ t'.length + beBytesToNat t') / 256 ^ t'.length = a' := by
          rw [mul_comm, Nat.mul_add_div hB, Nat.div_eq_of_lt hv']
          omega
        rw [← hda, ← hda', hval]
      subst hdiv
      have hrest : beBytesToNat t = beBytesToNat t' := by omega
      have := ih t' hlt (fun x hx => h₁ x (List.mem_cons_of_mem a hx))
        (fun x hx => h₂ x (List.mem_cons_of_mem a hx)) hrest
      rw [this]

theorem natToBytesAux_spec : ∀ f n, n ≤ f →
    beBytesToNat (natToBytesAux f n) = n ∧
    (∀ b ∈ natToBytesAux f n, b < 256) ∧
    (∀ j, n < 256 ^ j → (natToBytesAux f n).length ≤ j) := by
  intro f
  induction f with
  | zero =>
    intro n hn
    have : n = 0 := by omega
    subst this
    exact ⟨by simp [natToBytesAux, beBytesToNat], by simp [natToBytesAux], by
      intro j _; simp [natToBytesAux]⟩
  | succ f ih =>
    intro n hn
    by_cases h0 : n = 0
    · subst h0
      exact ⟨by simp [natToBytesAux, beBytesToNat], by simp [natToBytesAux], by
        intro j _; simp [natToBytesAux]⟩
    · have hdivle : n / 256 ≤ f := by
        have : n / 256 < n := Nat.div_lt_self (by omega) (by norm_num)
        omega
      obtain ⟨hv, hb, hl⟩ := ih (n / 256) hdivle
      simp only [natToBytesAux, if_neg h0]
      refine ⟨?_, ?_, ?_⟩
      · rw [beBytesToNat_append, hv]
        simp [beBytesToNat_cons, beBytesToNat]
        omega
      · intro b hbmem
        rcases List.mem_append.mp hbmem with hmem | hmem
        · exact hb b hmem
        · simp at hmem
          subst hmem
          exact Nat.mod_lt _ (by norm_num)
      · intro j hj
        cases j with
        | zero => simp at hj; omega
        | succ j =>
          have : n / 256 < 256 ^ j := by
            rw [Nat.div_lt_iff_lt_mul (by norm_num : (0:ℕ) < 256)]
            calc n < 256 ^ (j + 1) := hj
              _ = 256 ^ j * 256 := by rw [pow_succ]
          have := hl j this
          simp only [List.length_append, List.length_cons, List.length_nil]
          omega

theorem natToBytes_spec (n : ℕ) :
    beBytesToNat (natToBytes n) = n ∧ (∀ b ∈ natToBytes n, b < 256) ∧
    (∀ j, n < 256 ^ j → (natToBytes n).length ≤ j) :=
  natToBytesAux_spec n n le_rfl

theorem leftPad_length {k : ℕ} {l : List ℕ} (h : l.length ≤ k) :
    (leftPad k l).length = k := by
  simp [leftPad]
  omega

theorem leftPad_bytes_lt {k : ℕ} {l : List ℕ} (h : ∀ b ∈ l, b < 256) :
    ∀ b ∈ leftPad k l, b < 256 := by
  intro b hb
  rcases List.mem_append.mp hb with hm | hm
  · have := List.eq_of_mem_replicate hm
    omega
  · exact h b hm

theorem leftPad_value (k : ℕ) (l : List ℕ) :
    beBytesToNat (leftPad k l) = beBytesToNat l := by
  rw [leftPad, beBytesToNat_append, beBytesToNat_replicate_zero]
  simp

/-- Exporting the big-endian value of a byte string and left-padding
back to its length recovers the byte string. -/
theorem leftPad_natToBytes_beBytesToNat {l : List ℕ} (h : ∀ b ∈ l, b < 256) :
    leftPad l.length (natToBytes (beBytesToNat l)) = l := by
  obtain ⟨hv, hb, hl⟩ := natToBytes_spec (beBytesToNat l)
  have hlen : (natToBytes (beBytesToNat l)).length ≤ l.length :=
    hl l.length (beBytesToNat_lt h)
  apply beBytesToNat_injOn
  · exact leftPad_length hlen
  · exact leftPad_bytes_lt hb
  · exact h
  · rw [leftPad_value, hv]

/-! ## Structural lemmas about the hash, the mask generator, and XOR masking -/

theorem sha3_256_length (input : List ℕ) : (sha3_256 input).length = 32 := by
  simp [sha3_256]

theorem sha3_256_bytes_lt (input : List ℕ) : ∀ b ∈ sha3_256 input, b < 256 := by
  intro b hb
  simp only [sha3_256, List.mem_map] at hb
  obtain ⟨i, _, hi⟩ := hb
  rw [← hi, show (256:ℕ) = 2 ^ 8 by norm_num]
  exact Nat.and_lt_two_pow _ (by norm_num)

theorem flatten_length_of_forall {L : List (List ℕ)} (h : ∀ x ∈ L, x.length = 32) :
    L.flatten.length = 32 * L.length := by
  induction L with
  | nil => simp
  | cons x t ih =>
    simp only [List.flatten_cons, List.length_append, List.length_cons]
    rw [h x (List.mem_cons_self x t), ih fun y hy => h y (List.mem_cons_of_mem x hy)]
    ring

theorem mgf1_length (seed : List ℕ) (maskLen : ℕ) : (mgf1 seed maskLen).length = maskLen := by
  rw [mgf1, List.length_take]
  have h32 : ∀ x ∈ (List.range ((maskLen + 31) / 32)).map
      (fun i => sha3_256 (seed ++ counterBytes i)), x.length = 32 := by
    intro x hx
    simp only [List.mem_map] at hx
    obtain ⟨i, _, hi⟩ := hx
    rw [← hi]
    exact sha3_256_length _
  rw [flatten_length_of_forall h32, List.length_map, List.length_range]
  have : maskLen ≤ 32 * ((maskLen + 31) / 32) := by omega
  omega

theorem mgf1_bytes_lt (seed : List ℕ) (maskLen : ℕ) : ∀ b ∈ mgf1 seed maskLen, b < 256 := by
  intro b hb
  rw [mgf1] at hb
  have hb2 := List.mem_of_mem_take hb
  rw [List.mem_flatten] at hb2
  obtain ⟨l, hl, hbl⟩ := hb2
  simp only [List.mem_map] at hl
  obtain ⟨i, _, hi⟩ := hl
  rw [← hi] at hbl
  exact sha3_256_bytes_lt _ b hbl

theorem zipWith_xor_length (a b : List ℕ) :
    (List.zipWith (· ^^^ ·) a b).length = min a.length b.length :=
  List.length_zipWith ..

theorem zipWith_xor_cancel : ∀ a b : List ℕ, a.length = b.length →
    List.zipWith (· ^^^ ·) (List.zipWith (· ^^^ ·) a b) b = a := by
  intro a
  induction a with
  | nil => intro b _; simp
  | cons x t ih =>
    intro b hlen
    cases b with
    | nil => simp at hlen
    | cons y u =>
      simp only [List.zipWith_cons_cons]
      rw [ih u (by simpa using hlen)]
      congr 1
      rw [Nat.xor_assoc, Nat.xor_self, Nat.xor_zero]

theorem zipWith_xor_bytes_lt : ∀ a b : List ℕ, (∀ x ∈ a, x < 256) → (∀ x ∈ b, x < 256) →
    ∀ x ∈ List.zipWith (· ^^^ ·) a b, x < 256 := by
  intro a
  induction a with
  | nil => intro b _ _ x hx; simp at hx
  | cons p t ih =>
    intro b ha hb x hx
    cases b with
    | nil => simp at hx
    | cons q u =>
      simp only [List.zipWith_cons_cons, List.mem_cons] at hx
      rcases hx with hx | hx
      · rw [hx, show (256:ℕ) = 2 ^ 8 by norm_num]
        refine Nat.xor_lt_two_pow ?_ ?_
        · have := ha p (List.mem_cons_self p t); omega
        · have := hb q (List.mem_cons_self q u); omega
      · exact ih u (fun z hz => ha z (List.mem_cons_of_mem p hz))
          (fun z hz => hb z (List.mem_cons_of_mem q hz)) x hx

/-! ## OAEP lemmas -/

/-- The C separator scan, rephrased with `dropWhile`: skip the zero
bytes, then demand a `0x01`. -/
theorem sepScan_eq_dropWhile : ∀ s : List ℕ,
    sepScan s = match s.dropWhile (fun b => b = 0) with
      | [] => none
      | b :: rest => if b = 1 then some rest else none := by
  intro s
  induction s with
  | nil => simp [sepScan]
  | cons b rest ih =>
    by_cases hb : b = 0
    · subst hb
      simpa [sepScan, List.dropWhile_cons] using ih
    · simp [sepScan, List.dropWhile_cons, hb]

theorem sepScan_padding (ps : ℕ) (M : List ℕ) :
    sepScan (List.replicate ps 0 ++ 1 :: M) = some M := by
  induction ps with
  | zero => simp [sepScan]
  | succ ps ih => simpa [List.replicate_succ, sepScan] using ih

/-- Length of the encoded message produced by the body of
`rsa_oaep_pad`. -/
theorem padEM_length {M : List ℕ} {k : ℕ} {seed : List ℕ}
    (hseed : seed.length = 32) (hM : M.length + 66 ≤ k) :
    (padEM M k seed).length = k := by
  simp only [padEM, List.length_cons, List.length_append, zipWith_xor_length,
    mgf1_length, List.length_replicate, sha3_256_length, hseed, Nat.min_self,
    List.length_nil]
  omega

/-- All bytes of the encoded message are bytes (below 256), provided
the drawn seed consists of bytes.  (The message itself may be
arbitrary: only hash outputs and XOR masks reach the output except
through data-block masking.) -/
theorem padEM_bytes_lt {M : List ℕ} {k : ℕ} {seed : List ℕ}
    (hseedB : ∀ b ∈ seed, b < 256) (hMB : ∀ b ∈ M, b < 256) :
    ∀ b ∈ padEM M k seed, b < 256 := by
  intro b hb
  simp only [padEM, List.mem_cons, List.mem_append] at hb
  rcases hb with hb | hb
  · omega
  rcases hb with hb | hb
  · refine zipWith_xor_bytes_lt _ _ hseedB (mgf1_bytes_lt _ _) b hb
  · refine zipWith_xor_bytes_lt _ _ ?_ (mgf1_bytes_lt _ _) b hb
    intro x hx
    rcases List.mem_append.mp hx with hx | hx
    · rcases List.mem_append.mp hx with hx | hx
      · rcases List.mem_append.mp hx with hx | hx
        · exact sha3_256_bytes_lt _ x hx
        · have := List.eq_of_mem_replicate hx
          omega
      · rcases List.mem_cons.mp hx with hx | hx
        · omega
        · simp at hx
    · exact hMB x hx

/-- The first byte of the encoded message is the structural `0x00`. -/
theorem padEM_head (M : List ℕ) (k : ℕ) (seed : List ℕ) :
    padEM M k seed = 0 :: (padEM M k seed).drop 1 := by
  simp [padEM]

/-- OAEP round trip: decoding the body of an encoding recovers the
message, for any message within capacity and any 32-byte seed. -/
theorem oaep_roundtrip {M : List ℕ} {k : ℕ} {seed : List ℕ}
    (hseed : seed.length = 32) (hM : M.length + 66 ≤ k) :
    rsa_oaep_unpad (padEM M k seed) k = some M := by
  have hk : ¬ k < 2 * 32 + 2 := by omega
  -- name the intermediate values of the encoder
  set lHash := sha3_256 [] with hlHash
  have hlHashLen : lHash.length = 32 := sha3_256_length []
  set psLen := k - M.length - 2 * 32 - 2 with hpsLen
  set db := lHash ++ List.replicate psLen 0 ++ [1] ++ M with hdb
  have hdbLen : db.length = k - 33 := by
    simp only [hdb, List.length_append, List.length_replicate, List.length_cons,
      hlHashLen, List.length_nil]
    omega
  set dbMask := mgf1 seed db.length with hdbMask
  set maskedDB := List.zipWith (· ^^^ ·) db dbMask with hmaskedDB
  have hmdbLen : maskedDB.length = k - 33 := by
    rw [hmaskedDB, zipWith_xor_length, hdbMask, mgf1_length, hdbLen]
    omega
  set seedMask := mgf1 maskedDB 32 with hseedMask
  set maskedSeed := List.zipWith (· ^^^ ·) seed seedMask with hmaskedSeed
  have hmsLen : maskedSeed.length = 32 := by
    rw [hmaskedSeed, zipWith_xor_length, hseedMask, mgf1_length, hseed]
    omega
  have hem : padEM M k seed = 0 :: (maskedSeed ++ maskedDB) := by
    rw [padEM]
  rw [hem]
  simp only [rsa_oaep_unpad, if_neg hk]
  -- the decoder recovers each encoder intermediate
  have hdrop1 : (0 :: (maskedSeed ++ maskedDB)).drop 1 = maskedSeed ++ maskedDB := rfl
  have hms : ((0 :: (maskedSeed ++ maskedDB)).drop 1).take 32 = maskedSeed := by
    rw [hdrop1, List.take_left' hmsLen]
  have hmdb : ((0 :: (maskedSeed ++ maskedDB)).drop 33).take (k - 33) = maskedDB := by
    have h33 : (0 :: (maskedSeed ++ maskedDB)).drop 33 = maskedDB := by
      rw [List.drop_succ_cons, List.drop_left' hmsLen]
    rw [h33, ← hmdbLen, List.take_length]
  have hrec : recoverDB (0 :: (maskedSeed ++ maskedDB)) k = db := by
    rw [recoverDB]
    simp only [hms, hmdb]
    rw [← hseedMask, hmaskedSeed, zipWith_xor_cancel seed seedMask
      (by rw [hseedMask, mgf1_length, hseed])]
    rw [← hdbLen, ← hdbMask, hmaskedDB, zipWith_xor_cancel db dbMask
      (by rw [hdbMask, mgf1_length])]
  rw [hrec]
  have htake : db.take 32 = lHash := by
    rw [hdb, List.append_assoc, List.append_assoc, List.take_left' hlHashLen]
  have hdrop : db.drop 32 = List.replicate psLen 0 ++ 1 :: M := by
    rw [hdb, List.append_assoc, List.append_assoc, List.drop_left' hlHashLen]
    simp
  rw [htake, if_pos hlHash, hdrop, sepScan_padding]

/-- The decoder only looks at the input from byte 1 on. -/
theorem recoverDB_ext {em em' : List ℕ} (k : ℕ) (h : em.drop 1 = em'.drop 1) :
    recoverDB em k = recoverDB em' k := by
  have h33 : em.drop 33 = em'.drop 33 := by
    have hsplit : ∀ l : List ℕ, l.drop 33 = (l.drop 1).drop 32 := by
      intro l
      rw [List.drop_drop]
    rw [hsplit em, hsplit em', h]
  rw [recoverDB, recoverDB, h, h33]

theorem rsa_oaep_unpad_ext {em em' : List ℕ} (k : ℕ) (h : em.drop 1 = em'.drop 1) :
    rsa_oaep_unpad em k = rsa_oaep_unpad em' k := by
  rw [rsa_oaep_unpad, rsa_oaep_unpad, recoverDB_ext k h]

/-! ## Number-theoretic core: RSA inversion -/

theorem pow_one_add_mul_totient_modEq (p : ℕ) (hp : Nat.Prime p) (m t : ℕ) :
    m ^ (1 + t * (p - 1)) ≡ m [MOD p] := by
  by_cases hdvd : p ∣ m
  · have h0 : m ≡ 0 [MOD p] := Nat.modEq_zero_iff_dvd.mpr hdvd
    calc m ^ (1 + t * (p - 1)) ≡ 0 ^ (1 + t * (p - 1)) [MOD p] := h0.pow _
      _ = 0 := zero_pow (by omega)
      _ ≡ m [MOD p] := h0.symm
  · haveI : Fact p.Prime := ⟨hp⟩
    have hm0 : (m : ZMod p) ≠ 0 := by
      rw [Ne, ZMod.natCast_zmod_eq_zero_iff_dvd]
      exact hdvd
    have hf : (m : ZMod p) ^ (p - 1) = 1 := ZMod.pow_card_sub_one_eq_one hm0
    have hz : ((m ^ (1 + t * (p - 1)) : ℕ) : ZMod p) = ((m : ℕ) : ZMod p) := by
      push_cast
      rw [pow_add, pow_one, mul_comm t (p - 1), pow_mul, hf, one_pow, mul_one]
    exact (ZMod.natCast_eq_natCast_iff _ _ _).mp hz

theorem rsa_inversion_core (p q m t : ℕ) (hp : Nat.Prime p) (hq : Nat.Prime q)
    (hne : p ≠ q) : m ^ (1 + t * ((p - 1) * (q - 1))) ≡ m [MOD p * q] := by
  have hcop : Nat.Coprime p q := (Nat.coprime_primes hp hq).mpr hne
  have h1 : m ^ (1 + t * ((p - 1) * (q - 1))) ≡ m [MOD p] := by
    have := pow_one_add_mul_totient_modEq p hp m (t * (q - 1))
    rwa [show 1 + t * (q - 1) * (p - 1) = 1 + t * ((p - 1) * (q - 1)) by ring] at this
  have h2 : m ^ (1 + t * ((p - 1) * (q - 1))) ≡ m [MOD q] := by
    have := pow_one_add_mul_totient_modEq q hq m (t * (p - 1))
    rwa [show 1 + t * (p - 1) * (q - 1) = 1 + t * ((p - 1) * (q - 1)) by ring] at this
  exact (Nat.modEq_and_modEq_iff_modEq_mul hcop).mp ⟨h1, h2⟩

/-- Signing then verifying restores any residue below the modulus:
`(m^d mod n)^e mod n = m` for `n = p*q` and `e*d ≡ 1 (mod (p-1)(q-1))`. -/
theorem rsa_sign_verify_value {p q e d m : ℕ} (hp : Nat.Prime p) (hq : Nat.Prime q)
    (hne : p ≠ q) (hed : e * d ≡ 1 [MOD (p - 1) * (q - 1)]) (hm : m < p * q) :
    powMod (powMod m d (p * q)) e (p * q) = m := by
  have hphi : 2 ≤ (p - 1) * (q - 1) := by
    have hp2 := hp.two_le
    have hq2 := hq.two_le
    rcases Nat.lt_or_ge 2 p with h3 | h3
    · calc 2 = 2 * 1 := by norm_num
        _ ≤ (p - 1) * (q - 1) := Nat.mul_le_mul (by omega) (by omega)
    · have hp2' : p = 2 := by omega
      have hq3 : 3 ≤ q := by omega
      calc 2 = 1 * 2 := by norm_num
        _ ≤ (p - 1) * (q - 1) := Nat.mul_le_mul (by omega) (by omega)
  have hed1 : e * d % ((p - 1) * (q - 1)) = 1 := by
    have h := hed
    rw [Nat.ModEq, Nat.mod_eq_of_lt (by omega : 1 < (p - 1) * (q - 1))] at h
    exact h
  have hedpos : 1 ≤ e * d := by
    rcases Nat.eq_zero_or_pos (e * d) with h0 | h1
    · rw [h0] at hed1
      simp at hed1
    · exact h1
  obtain ⟨t, ht⟩ : ∃ t, e * d = 1 + t * ((p - 1) * (q - 1)) := by
    have hdvd : (p - 1) * (q - 1) ∣ e * d - 1 := (Nat.modEq_iff_dvd' hedpos).mp hed.symm
    obtain ⟨t, ht⟩ := hdvd
    rw [mul_comm ((p - 1) * (q - 1)) t] at ht
    exact ⟨t, by omega⟩
  have hcore := rsa_inversion_core p q m t hp hq hne
  rw [powMod_eq, powMod_eq, ← Nat.pow_mod, ← pow_mul, mul_comm d e, ht]
  rw [Nat.ModEq] at hcore
  rw [hcore, Nat.mod_eq_of_lt hm]

/-! ## Lucas primality certificates -/

theorem mem_of_prime_dvd_prod {r : ℕ} (hr : Nat.Prime r) :
    ∀ qs : List ℕ, (∀ x ∈ qs, Nat.Prime x) → r ∣ qs.prod → r ∈ qs := by
  intro qs
  induction qs with
  | nil =>
    intro _ hdvd
    simp only [List.prod_nil] at hdvd
    exact absurd (Nat.dvd_one.mp hdvd) hr.ne_one
  | cons x t ih =>
    intro hall hdvd
    rw [List.prod_cons] at hdvd
    rcases (Nat.Prime.dvd_mul hr).mp hdvd with hx | ht
    · have hxp := hall x (List.mem_cons_self x t)
      have : r = x := (Nat.prime_dvd_prime_iff_eq hr hxp).mp hx
      rw [this]
      exact List.mem_cons_self x t
    · exact List.mem_cons_of_mem x
        (ih (fun y hy => hall y (List.mem_cons_of_mem x hy)) ht)

/-- A checkable Lucas certificate: `a` has full order `p - 1` modulo
`p`, witnessed through `powMod` computations and a complete prime
factor list of `p - 1`. -/
theorem prime_of_lucas_cert (p a : ℕ) (qs : List ℕ) (hp2 : 2 ≤ p)
    (hqs : ∀ r ∈ qs, Nat.Prime r) (hprod : qs.prod = p - 1)
    (hpow : powMod a (p - 1) p = 1)
    (hne : ∀ r ∈ qs, powMod a ((p - 1) / r) p ≠ 1) : Nat.Prime p := by
  have hp0 : 0 < p := by omega
  have hcast : ∀ j : ℕ, (a : ZMod p) ^ j = ((powMod a j p : ℕ) : ZMod p) := by
    intro j
    rw [powMod_eq, ZMod.natCast_mod]
    push_cast
    rfl
  apply lucas_primality p (a : ZMod p)
  · rw [hcast, hpow]
    exact Nat.cast_one
  · intro r hr hdvd
    have hrs : r ∈ qs := mem_of_prime_dvd_prod hr qs hqs (hprod ▸ hdvd)
    intro hcontra
    rw [hcast] at hcontra
    have hlt : powMod a ((p - 1) / r) p < p := powMod_lt _ _ hp0
    haveI : Fact (1 < p) := ⟨by omega⟩
    have hv := congrArg ZMod.val hcontra
    rw [ZMod.val_cast_of_lt hlt, ZMod.val_one p] at hv
    exact hne r hrs hv

/-! ## Miller–Rabin on primes -/

theorem nat_eq_of_zmod_cast_eq {n x y : ℕ} (hx : x < n) (hy : y < n)
    (h : (x : ZMod n) = (y : ZMod n)) : x = y := by
  have hv := congrArg ZMod.val h
  rwa [ZMod.val_cast_of_lt hx, ZMod.val_cast_of_lt hy] at hv

theorem mrSquares_true_of_exists : ∀ c x n, (∃ j, 1 ≤ j ∧ j ≤ c ∧ sqIter j x n = n - 1) →
    mrSquares c x n = true := by
  intro c
  induction c with
  | zero =>
    intro x n ⟨j, h1, h2, _⟩
    omega
  | succ c ih =>
    intro x n ⟨j, h1, h2, hj⟩
    rw [mrSquares]
    by_cases hx2 : x * x % n = n - 1
    · simp [hx2]
    · simp only [if_neg hx2]
      apply ih
      have hj1 : j ≠ 1 := by
        intro h
        subst h
        exact hx2 hj
      refine ⟨j - 1, by omega, by omega, ?_⟩
      have : sqIter j x n = sqIter (j - 1) (x * x % n) n := by
        conv_lhs => rw [show j = (j - 1) + 1 by omega]
        rfl
      rw [← this, hj]

theorem sqIter_lt {n : ℕ} (hn : 0 < n) : ∀ j x, x < n → sqIter j x n < n := by
  intro j
  induction j with
  | zero => intro x hx; exact hx
  | succ j ih =>
    intro x _
    exact ih (x * x % n) (Nat.mod_lt _ hn)

theorem sqIter_cast (n : ℕ) : ∀ j x, ((sqIter j x n : ℕ) : ZMod n) = (x : ZMod n) ^ 2 ^ j := by
  intro j
  induction j with
  | zero => intro x; simp [sqIter]
  | succ j ih =>
    intro x
    rw [sqIter, ih (x * x % n)]
    rw [ZMod.natCast_mod]
    push_cast
    rw [← pow_two, ← pow_mul, ← pow_succ']

/-- In a field, an element other than 1 whose `2^r`-th power is 1
passes through `-1` on the way. -/
theorem pow_two_pow_eq_one_imp {F : Type} [Field F] :
    ∀ r (b : F), b ≠ 1 → b ^ 2 ^ r = 1 → ∃ j, j < r ∧ b ^ 2 ^ j = -1 := by
  intro r
  induction r with
  | zero =>
    intro b hb h1
    rw [pow_zero, pow_one] at h1
    exact absurd h1 hb
  | succ r ih =>
    intro b hb h1
    have hsq : b ^ 2 ^ r * (b ^ 2 ^ r) = 1 := by
      rw [← pow_add]
      rw [show 2 ^ r + 2 ^ r = 2 ^ (r + 1) by ring]
      exact h1
    rcases mul_self_eq_one_iff.mp hsq with hc | hc
    · obtain ⟨j, hj, hval⟩ := ih b hb hc
      exact ⟨j, by omega, hval⟩
    · exact ⟨r, by omega, hc⟩

/-- A Miller–Rabin round never rejects an actual prime. -/
theorem mrRound_prime {n : ℕ} (hn : Nat.Prime n) (h5 : 5 ≤ n) {r d a : ℕ}
    (hrd : n - 1 = 2 ^ r * d) (ha2 : 2 ≤ a) (han : a ≤ n - 2) :
    mrRound n r d a = true := by
  haveI : Fact n.Prime := ⟨hn⟩
  have hn0 : 0 < n := by omega
  rw [mrRound]
  by_cases hx : powMod a d n = 1 ∨ powMod a d n = n - 1
  · simp [hx]
  · simp only [if_neg hx]
    push_neg at hx
    obtain ⟨hx1, hxn1⟩ := hx
    set x0 := powMod a d n with hx0
    have hx0lt : x0 < n := powMod_lt _ _ hn0
    have ha0 : (a : ZMod n) ≠ 0 := by
      intro hc
      rw [ZMod.natCast_zmod_eq_zero_iff_dvd] at hc
      have := Nat.eq_zero_of_dvd_of_lt hc (by omega)
      omega
    set b : ZMod n := (a : ZMod n) ^ d with hb
    have hcastx0 : ((x0 : ℕ) : ZMod n) = b := by
      rw [hx0, powMod_eq, ZMod.natCast_mod]
      push_cast
      rfl
    have hbr : b ^ 2 ^ r = 1 := by
      rw [hb, ← pow_mul, mul_comm d (2 ^ r), ← hrd]
      exact ZMod.pow_card_sub_one_eq_one ha0
    have hcast1 : ((1 : ℕ) : ZMod n) = (1 : ZMod n) := Nat.cast_one
    have hbne1 : b ≠ 1 := by
      intro hc
      apply hx1
      apply nat_eq_of_zmod_cast_eq hx0lt (by omega : 1 < n)
      rw [hcastx0, hc, hcast1]
    obtain ⟨j, hjr, hjval⟩ := pow_two_pow_eq_one_imp r b hbne1 hbr
    have hcastn1 : ((n - 1 : ℕ) : ZMod n) = -1 := by
      rw [Nat.cast_sub (by omega : 1 ≤ n), ZMod.natCast_self]
      push_cast
      ring
    have hj0 : j ≠ 0 := by
      intro hc
      subst hc
      rw [pow_zero, pow_one] at hjval
      apply hxn1
      apply nat_eq_of_zmod_cast_eq hx0lt (by omega : n - 1 < n)
      rw [hcastx0, hjval, hcastn1]
    apply mrSquares_true_of_exists
    refine ⟨j, by omega, by omega, ?_⟩
    apply nat_eq_of_zmod_cast_eq (sqIter_lt hn0 j x0 hx0lt) (by omega : n - 1 < n)
    rw [sqIter_cast, hcastx0, hjval, hcastn1]

/-- The Miller–Rabin tester accepts every prime, whatever the drawn
bases (each below `n - 1`, as produced by `mpz_urandomm`). -/
theorem miller_rabin_test_prime {n : ℕ} (hn : Nat.Prime n) (as : List ℕ)
    (has : ∀ v ∈ as, v < n - 1) : miller_rabin_test n as = true := by
  by_cases h23 : n = 2 ∨ n = 3
  · simp [miller_rabin_test, h23]
  · push_neg at h23
    have h5 : 5 ≤ n := by
      have h2 := hn.two_le
      rcases Nat.lt_or_ge n 5 with h | h
      · interval_cases n
        · omega
        · omega
        · exact absurd (Nat.prime_def_lt.mp hn) (by decide)
      · exact h
    have hodd : n % 2 = 1 := Nat.odd_iff.mp (hn.odd_of_ne_two h23.1)
    have hcond : ¬ (n = 2 ∨ n = 3) := by omega
    have hcond2 : ¬ (n ≤ 1 ∨ n % 2 = 0) := by omega
    rw [miller_rabin_test, if_neg hcond, if_neg hcond2]
    rw [List.all_eq_true]
    intro v hv
    have hsplit := oddSplit_spec (m := n - 1) (by omega)
    have hrd : n - 1 = 2 ^ (oddSplit (n - 1)).1 * (oddSplit (n - 1)).2 := hsplit.2
    have hvn := has v hv
    by_cases hv2 : v < 2
    · rw [if_pos hv2]
      exact mrRound_prime hn h5 hrd (by omega) (by omega)
    · rw [if_neg hv2]
      exact mrRound_prime hn h5 hrd (by omega) (by omega)

/-! ## Properties of the generated primes and key pairs -/

theorem forced_bits_lower {v bits : ℕ} (hbits : 1 ≤ bits) :
    2 ^ (bits - 1) ≤ v ||| 2 ^ (bits - 1) ||| 1 := by
  apply Nat.testBit_implies_ge (i := bits - 1)
  rw [Nat.testBit_or, Nat.testBit_or, Nat.testBit_two_pow_self]
  simp

theorem forced_bits_upper {v bits : ℕ} (hbits : 1 ≤ bits) (hv : v < 2 ^ bits) :
    v ||| 2 ^ (bits - 1) ||| 1 < 2 ^ bits := by
  apply Nat.or_lt_two_pow
  · apply Nat.or_lt_two_pow hv
    exact Nat.pow_lt_pow_right (by norm_num) (by omega)
  · exact Nat.one_lt_two_pow (by omega)

theorem forced_bits_odd (v c : ℕ) : (v ||| c ||| 1) % 2 = 1 := by
  rw [Nat.mod_two_eq_one_iff_testBit_zero, Nat.testBit_or]
  simp

/-- Everything `generate_prime` guarantees about its output: exact bit
length (top bit forced), oddness (bottom bit forced), and a passed
40-round Miller–Rabin test. -/
theorem generate_prime_rel_spec {bits p : ℕ} (hbits : 1 ≤ bits)
    (h : generate_prime_rel bits p) :
    2 ^ (bits - 1) ≤ p ∧ p < 2 ^ bits ∧ p % 2 = 1 ∧ sizeInBase2 p = bits ∧
    ∃ as, as.length = 40 ∧ (∀ a ∈ as, a < p - 1) ∧ miller_rabin_test p as = true := by
  obtain ⟨v, as, hv, hlen, hdraw, hform, hmr, _⟩ := h
  subst hform
  refine ⟨forced_bits_lower hbits, forced_bits_upper hbits hv, forced_bits_odd v _, ?_,
    as, hlen, hdraw, hmr⟩
  exact sizeInBase2_eq_of_bounds (forced_bits_lower hbits) (forced_bits_upper hbits hv) hbits

/-- Everything `generate_rsa_keys` guarantees about its output.  Note
the bit length of `n = p*q` can be one short of `2 * (bits / 2)`: the
code never rechecks it. -/
theorem generate_rsa_keys_rel_spec {bits n e d : ℕ} (hbits : 2 ≤ bits / 2)
    (h : generate_rsa_keys_rel bits n e d) :
    e = 65537 ∧
    (sizeInBase2 n = 2 * (bits / 2) ∨ sizeInBase2 n = 2 * (bits / 2) - 1) ∧
    ∃ p q, n = p * q ∧ p ≠ q ∧
      (2 ^ (bits / 2 - 1) ≤ p ∧ p < 2 ^ (bits / 2) ∧ p % 2 = 1 ∧
        ∃ as, as.length = 40 ∧ miller_rabin_test p as = true) ∧
      (2 ^ (bits / 2 - 1) ≤ q ∧ q < 2 ^ (bits / 2) ∧ q % 2 = 1 ∧
        ∃ bs, bs.length = 40 ∧ miller_rabin_test q bs = true) ∧
      Nat.gcd 65537 ((p - 1) * (q - 1)) = 1 ∧
      d < (p - 1) * (q - 1) ∧ 65537 * d ≡ 1 [MOD (p - 1) * (q - 1)] := by
  obtain ⟨p, q, hp, hq, hne, hn, he, hgcd, hdlt, hed⟩ := h
  obtain ⟨hp1, hp2, hpodd, _, asp, hasp, _, hmrp⟩ :=
    generate_prime_rel_spec (by omega) hp
  obtain ⟨hq1, hq2, hqodd, _, asq, hasq, _, hmrq⟩ :=
    generate_prime_rel_spec (by omega) hq
  subst he
  subst hn
  set b := bits / 2 with hb
  refine ⟨rfl, ?_, p, q, rfl, hne, ⟨hp1, hp2, hpodd, asp, hasp, hmrp⟩,
    ⟨hq1, hq2, hqodd, asq, hasq, hmrq⟩, hgcd, hdlt, hed⟩
  -- bit length of p*q is 2b or 2b-1
  have hlow : 2 ^ (2 * b - 2) ≤ p * q := by
    calc 2 ^ (2 * b - 2) = 2 ^ (b - 1) * 2 ^ (b - 1) := by
          rw [← pow_add]
          congr 1
          omega
      _ ≤ p * q := Nat.mul_le_mul hp1 hq1
  have hhigh : p * q < 2 ^ (2 * b) := by
    calc p * q < 2 ^ b * 2 ^ b := by
          apply Nat.mul_lt_mul_of_lt_of_le hp2 (le_of_lt hq2)
          exact Nat.pos_pow_of_pos b (by norm_num)
      _ = 2 ^ (2 * b) := by
          rw [← pow_add]
          congr 1
          omega
  have hn1 : 1 ≤ p * q := le_trans Nat.one_le_two_pow hlow
  obtain ⟨hclo, hchi⟩ := sizeInBase2_bounds hn1
  set s := sizeInBase2 (p * q) with hs
  have hs1 : 1 ≤ s := by
    by_contra hc
    push_neg at hc
    interval_cases s
    · simp at hchi
      omega
  have hsle : s ≤ 2 * b := by
    by_contra hc
    push_neg at hc
    have : 2 ^ (2 * b) ≤ 2 ^ (s - 1) := Nat.pow_le_pow_right (by norm_num) (by omega)
    omega
  have hsge : 2 * b - 1 ≤ s := by
    by_contra hc
    push_neg at hc
    have : 2 ^ s ≤ 2 ^ (2 * b - 2) := Nat.pow_le_pow_right (by norm_num) (by omega)
    omega
  omega

/-! ## The sign/verify pipeline -/

/-- The integer value of an encoded message is below `256^(k-1)`:
its leading byte is the structural zero. -/
theorem padEM_value_lt {M : List ℕ} {k : ℕ} {seed : List ℕ}
    (hseed : seed.length = 32) (hseedB : ∀ b ∈ seed, b < 256) (hMB : ∀ b ∈ M, b < 256)
    (hM : M.length + 66 ≤ k) :
    beBytesToNat (padEM M k seed) < 256 ^ (k - 1) := by
  have hlen : (padEM M k seed).length = k := padEM_length hseed hM
  have hB := padEM_bytes_lt (M := M) (k := k) hseedB hMB
  rw [padEM_head M k seed, beBytesToNat_cons]
  have hdropLen : ((padEM M k seed).drop 1).length = k - 1 := by
    rw [List.length_drop, hlen]
  have hdropB : ∀ b ∈ (padEM M k seed).drop 1, b < 256 := fun b hb =>
    hB b (List.mem_of_mem_drop hb)
  have := beBytesToNat_lt hdropB
  rw [hdropLen] at this
  omega

/-- Signing a content's digest with `d` and then verifying with `e`
(raise, re-export, left-pad to `k` bytes, OAEP-decode) recovers
exactly the digest, for any well-formed RSA key pair whose modulus has
at least 98 bytes. -/
theorem sign_then_verify {p q e d : ℕ} (content seed : List ℕ)
    (hp : Nat.Prime p) (hq : Nat.Prime q) (hpq : p ≠ q)
    (hed : e * d ≡ 1 [MOD (p - 1) * (q - 1)])
    (hseed : seed.length = 32) (hseedB : ∀ b ∈ seed, b < 256)
    (hk : 98 ≤ sizeInBase256 (p * q)) :
    rsa_oaep_unpad
      (leftPad (sizeInBase256 (p * q))
        (natToBytes
          (powMod
            (powMod
              (beBytesToNat (padEM (sha3_256 content) (sizeInBase256 (p * q)) seed))
              d (p * q))
            e (p * q))))
      (sizeInBase256 (p * q)) = some (sha3_256 content) := by
  set n := p * q with hn
  set k := sizeInBase256 n with hkdef
  set digest := sha3_256 content with hdig
  have hdigl : digest.length = 32 := sha3_256_length content
  have hdigB : ∀ b ∈ digest, b < 256 := sha3_256_bytes_lt content
  have hcap : digest.length + 66 ≤ k := by omega
  set em := padEM digest k seed with hem
  set m := beBytesToNat em with hm
  have hemlen : em.length = k := padEM_length hseed hcap
  have hemB : ∀ b ∈ em, b < 256 := padEM_bytes_lt hseedB hdigB
  have hn1 : 1 ≤ n := by
    have := hp.two_le
    have := hq.two_le
    calc 1 ≤ 2 * 2 := by norm_num
      _ ≤ p * q := Nat.mul_le_mul hp.two_le hq.two_le
  have hmlt : m < n := by
    have h1 : m < 256 ^ (k - 1) := padEM_value_lt hseed hseedB hdigB hcap
    have h2 : 256 ^ (k - 1) ≤ n := (sizeInBase256_bounds hn1).1
    omega
  have hrsa : powMod (powMod m d n) e n = m :=
    rsa_sign_verify_value hp hq hpq hed hmlt
  rw [hrsa]
  have hrestore : leftPad k (natToBytes m) = em := by
    have := leftPad_natToBytes_beBytesToNat hemB
    rwa [hemlen] at this
  rw [hrestore]
  exact oaep_roundtrip hseed hcap

/-! ## Certificates for the concrete key material -/

set_option maxRecDepth 10000 in
theorem certP_prime : Nat.Prime certP := by
  apply prime_of_lucas_cert certP 3 (7 :: List.replicate 390 2)
  · decide
  · intro r hr
    rcases List.mem_cons.mp hr with h | h
    · rw [h]
      norm_num
    · rw [List.eq_of_mem_replicate h]
      norm_num
  · rw [List.prod_cons, List.prod_replicate]
    decide
  · decide
  · intro r hr
    rcases List.mem_cons.mp hr with h | h
    · rw [h]
      decide
    · rw [List.eq_of_mem_replicate h]
      decide

set_option maxRecDepth 10000 in
theorem certQ_prime : Nat.Prime certQ := by
  apply prime_of_lucas_cert certQ 3 (997 :: List.replicate 390 2)
  · decide
  · intro r hr
    rcases List.mem_cons.mp hr with h | h
    · rw [h]
      norm_num
    · rw [List.eq_of_mem_replicate h]
      norm_num
  · rw [List.prod_cons, List.prod_replicate]
    decide
  · decide
  · intro r hr
    rcases List.mem_cons.mp hr with h | h
    · rw [h]
      decide
    · rw [List.eq_of_mem_replicate h]
      decide

set_option maxRecDepth 10000 in
theorem cert_ed_inverse : 65537 * certD ≡ 1 [MOD (certP - 1) * (certQ - 1)] := by
  decide

set_option maxRecDepth 10000 in
theorem cert_modulus_bytes : 98 ≤ sizeInBase256 (certP * certQ) := by
  decide

theorem cert_p_ne_q : certP ≠ certQ := by
  decide

/-- A complete reachable run of `generate_rsa_keys 10`: the candidate
25 (drawn with forty strong-liar bases 7) passes Miller–Rabin despite
being composite, 19 is a genuine prime, and the key pair
`(n, e, d) = (475, 65537, 17)` is produced. -/
theorem keygen_rel_example : generate_rsa_keys_rel 10 475 65537 17 :=
  ⟨25, 19,
    ⟨25, List.replicate 40 7, by decide, by decide, by decide, by decide, by decide, by decide⟩,
    ⟨19, List.replicate 40 2, by decide, by decide, by decide, by decide, by decide, by decide⟩,
    by decide, by decide, rfl, by decide, by decide, by decide⟩

/-! ## The claims -/

/-- C1: for every file content and every well-formed RSA key pair
(distinct primes `p ≠ q`, `e·d ≡ 1 (mod (p-1)(q-1))`, and a modulus of
at least 98 bytes so the 32-byte digest fits the OAEP capacity),
signing the content (hash, OAEP-pad, raise to `d` mod `n`) and then
verifying (raise to `e` mod `n`, left-pad the exported bytes to `k`,
OAEP-decode) succeeds and recovers exactly the SHA3-256 digest of the
content. -/
theorem claim1_sign_then_verify_valid {p q e d : ℕ} (content seed : List ℕ)
    (hp : Nat.Prime p) (hq : Nat.Prime q) (hpq : p ≠ q)
    (hed : e * d ≡ 1 [MOD (p - 1) * (q - 1)])
    (hseed : seed.length = 32) (hseedB : ∀ b ∈ seed, b < 256)
    (hk : 98 ≤ sizeInBase256 (p * q)) :
    rsa_oaep_unpad
      (leftPad (sizeInBase256 (p * q))
        (natToBytes
          (powMod
            (powMod
              (beBytesToNat (padEM (sha3_256 content) (sizeInBase256 (p * q)) seed))
              d (p * q))
            e (p * q))))
      (sizeInBase256 (p * q)) = some (sha3_256 content) :=
  sign_then_verify content seed hp hq hpq hed hseed hseedB hk

set_option maxRecDepth 10000 in
theorem claim1_witness :
    Nat.Prime certP ∧ Nat.Prime certQ ∧ certP ≠ certQ ∧
    65537 * certD ≡ 1 [MOD (certP - 1) * (certQ - 1)] ∧
    (List.replicate 32 0).length = 32 ∧ 98 ≤ sizeInBase256 (certP * certQ) ∧
    rsa_oaep_unpad
      (leftPad (sizeInBase256 (certP * certQ))
        (natToBytes
          (powMod
            (powMod
              (beBytesToNat
                (padEM (sha3_256 []) (sizeInBase256 (certP * certQ)) (List.replicate 32 0)))
              certD (certP * certQ))
            65537 (certP * certQ))))
      (sizeInBase256 (certP * certQ)) = some (sha3_256 []) :=
  ⟨certP_prime, certQ_prime, cert_p_ne_q, cert_ed_inverse, by decide, cert_modulus_bytes,
    claim1_sign_then_verify_valid [] (List.replicate 32 0) certP_prime certQ_prime
      cert_p_ne_q cert_ed_inverse (by decide) (by decide) cert_modulus_bytes⟩

/-- C2: for every message within the OAEP capacity
(`len(M) ≤ k - 2·hLen - 2` with `hLen = 32`) and every 32-byte seed,
decoding the `k`-byte encoding of `M` succeeds and returns exactly
`M`. -/
theorem claim2_oaep_roundtrip (M : List ℕ) (k : ℕ) (seed : List ℕ)
    (hseed : seed.length = 32) (hk : 2 * 32 + 2 ≤ k)
    (hcap : M.length ≤ k - (2 * 32 + 2)) :
    rsa_oaep_unpad (padEM M k seed) k = some M :=
  oaep_roundtrip hseed (by omega)

theorem claim2_witness :
    (List.replicate 32 0).length = 32 ∧ 2 * 32 + 2 ≤ 66 ∧
    ([] : List ℕ).length ≤ 66 - (2 * 32 + 2) ∧
    rsa_oaep_unpad (padEM [] 66 (List.replicate 32 0)) 66 = some [] :=
  ⟨by decide, by decide, by decide,
    claim2_oaep_roundtrip [] 66 (List.replicate 32 0) (by decide) (by decide) (by decide)⟩

/-- C3 (counterexample): the claim demands the bit length of `n` to
equal the requested size, but the reachable run
`generate_rsa_keys 10 = (475, 65537, 17)` (with `p = 25`, `q = 19`)
produces a 9-bit modulus. -/
theorem claim3_counterexample :
    generate_rsa_keys_rel 10 475 65537 17 ∧ sizeInBase2 475 ≠ 10 :=
  ⟨keygen_rel_example, by decide⟩

/-- C3 (amended): every key pair produced by `generate_rsa_keys bits`
satisfies: `e = 65537`; the bit length of `n` is `2·(bits/2)` or
`2·(bits/2) - 1`; `n = p·q` for two distinct values of exactly
`bits/2` bits, each odd and each having passed the 40-iteration
Miller–Rabin test for some drawn bases; `gcd(e, (p-1)(q-1)) = 1`; and
`(e·d) ≡ 1 (mod (p-1)(q-1))`. -/
theorem claim3_keypair_invariant {bits n e d : ℕ} (hbits : 2 ≤ bits / 2)
    (h : generate_rsa_keys_rel bits n e d) :
    e = 65537 ∧
    (sizeInBase2 n = 2 * (bits / 2) ∨ sizeInBase2 n = 2 * (bits / 2) - 1) ∧
    ∃ p q, n = p * q ∧ p ≠ q ∧
      (2 ^ (bits / 2 - 1) ≤ p ∧ p < 2 ^ (bits / 2) ∧ p % 2 = 1 ∧
        ∃ as, as.length = 40 ∧ miller_rabin_test p as = true) ∧
      (2 ^ (bits / 2 - 1) ≤ q ∧ q < 2 ^ (bits / 2) ∧ q % 2 = 1 ∧
        ∃ bs, bs.length = 40 ∧ miller_rabin_test q bs = true) ∧
      Nat.gcd 65537 ((p - 1) * (q - 1)) = 1 ∧
      d < (p - 1) * (q - 1) ∧ 65537 * d ≡ 1 [MOD (p - 1) * (q - 1)] :=
  generate_rsa_keys_rel_spec hbits h

theorem claim3_witness :
    2 ≤ 10 / 2 ∧ generate_rsa_keys_rel 10 475 65537 17 ∧
    (sizeInBase2 475 = 2 * (10 / 2) ∨ sizeInBase2 475 = 2 * (10 / 2) - 1) :=
  ⟨by norm_num, keygen_rel_example,
    (claim3_keypair_invariant (by norm_num) keygen_rel_example).2.1⟩

set_option maxRecDepth 10000 in
/-- C4 (code bug): for inputs whose length is `≡ 135 (mod 136)` the
padded buffer length stays at the input length — not a positive
multiple of the 136-byte rate — and the `0x06` domain byte is written
out of bounds (it never lands in the buffer); only `0x80` is ORed into
the last message byte.  Evaluated at the 135-byte zero input. -/
theorem claim4_sha3_padding_failure :
    sha3Pad (List.replicate 135 0) = List.replicate 134 0 ++ [128] ∧
    (sha3Pad (List.replicate 135 0)).length % 136 ≠ 0 := by
  constructor
  · decide
  · decide

/-- C5 (code bug): the OAEP-encode length check computes `k - 66` in
32-bit unsigned arithmetic, so for `k = 65` (where the claim requires
`MessageTooLong`, as `0 > 65 - 66` over ℤ) the empty message is
accepted instead of rejected. -/
theorem claim5_pad_check_failure :
    rsa_oaep_pad [] 65 (List.replicate 32 0) ≠ none ∧ ((0 : ℤ) > 65 - 2 * 32 - 2) := by
  constructor
  · intro h
    rw [rsa_oaep_pad] at h
    simp at h
  · decide

/-- C6: decoding fails iff `k < 2·hLen + 2`, or the first 32 bytes of
the recovered data block differ from `lHash = hash("")`, or the
forward scan over zero bytes from byte 32 of the data block runs off
the end or stops at a byte other than `0x01`; otherwise it returns
exactly the bytes after the separator. -/
theorem claim6_unpad_characterization (em : List ℕ) (k : ℕ) :
    (k < 2 * 32 + 2 → rsa_oaep_unpad em k = none) ∧
    (2 * 32 + 2 ≤ k →
      rsa_oaep_unpad em k =
        if (recoverDB em k).take 32 = sha3_256 [] then
          match ((recoverDB em k).drop 32).dropWhile (fun b => b = 0) with
          | [] => none
          | b :: rest => if b = 1 then some rest else none
        else none) := by
  constructor
  · intro h
    simp only [rsa_oaep_unpad, if_pos h]
  · intro h
    simp only [rsa_oaep_unpad, if_neg (by omega : ¬ k < 2 * 32 + 2)]
    by_cases hl : (recoverDB em k).take 32 = sha3_256 []
    · rw [if_pos hl, if_pos hl, sepScan_eq_dropWhile]
    · rw [if_neg hl, if_neg hl]

theorem claim6_witness :
    rsa_oaep_unpad (List.replicate 66 0) 66 =
      if (recoverDB (List.replicate 66 0) 66).take 32 = sha3_256 [] then
        match ((recoverDB (List.replicate 66 0) 66).drop 32).dropWhile (fun b => b = 0) with
        | [] => none
        | b :: rest => if b = 1 then some rest else none
      else none :=
  (claim6_unpad_characterization (List.replicate 66 0) 66).2 (by decide)

/-- C7: the primality tester returns true on 2 and 3 and false on
`n ≤ 1` and even `n > 3`, regardless of the drawn bases; and on every
actual prime it returns true for every iteration count and every
sequence of base draws (each drawn below `n - 1`). -/
theorem claim7_miller_rabin :
    (∀ as : List ℕ, miller_rabin_test 2 as = true) ∧
    (∀ as : List ℕ, miller_rabin_test 3 as = true) ∧
    (∀ n, n ≤ 1 → ∀ as : List ℕ, miller_rabin_test n as = false) ∧
    (∀ n, 3 < n → n % 2 = 0 → ∀ as : List ℕ, miller_rabin_test n as = false) ∧
    (∀ n, Nat.Prime n → ∀ as : List ℕ, (∀ v ∈ as, v < n - 1) →
      miller_rabin_test n as = true) := by
  refine ⟨?_, ?_, ?_, ?_, ?_⟩
  · intro as
    simp [miller_rabin_test]
  · intro as
    simp [miller_rabin_test]
  · intro n hn as
    rw [miller_rabin_test, if_neg (by omega : ¬ (n = 2 ∨ n = 3)), if_pos (Or.inl hn)]
  · intro n hn3 heven as
    rw [miller_rabin_test, if_neg (by omega : ¬ (n = 2 ∨ n = 3)), if_pos (Or.inr heven)]
  · intro n hn as has
    exact miller_rabin_test_prime hn as has

theorem claim7_witness :
    Nat.Prime 7919 ∧ (∀ v ∈ [17], v < 7919 - 1) ∧
    miller_rabin_test 7919 [17] = true :=
  ⟨by norm_num, by decide,
    claim7_miller_rabin.2.2.2.2 7919 (by norm_num) [17] (by decide)⟩

/-- C8: every value produced by `generate_prime bits` has exactly
`bits` bits (top bit set: `2^(bits-1) ≤ p < 2^bits`), is odd, and
passed the 40-iteration Miller–Rabin test for some sequence of base
draws. -/
theorem claim8_generate_prime {bits p : ℕ} (hbits : 1 ≤ bits)
    (h : generate_prime_rel bits p) :
    2 ^ (bits - 1) ≤ p ∧ p < 2 ^ bits ∧ p % 2 = 1 ∧ sizeInBase2 p = bits ∧
    ∃ as, as.length = 40 ∧ (∀ a ∈ as, a < p - 1) ∧ miller_rabin_test p as = true :=
  generate_prime_rel_spec hbits h

theorem claim8_witness :
    1 ≤ 5 ∧ generate_prime_rel 5 19 ∧
    (2 ^ (5 - 1) ≤ 19 ∧ 19 < 2 ^ 5 ∧ 19 % 2 = 1 ∧ sizeInBase2 19 = 5 ∧
      ∃ as, as.length = 40 ∧ (∀ a ∈ as, a < 19 - 1) ∧ miller_rabin_test 19 as = true) := by
  have hrel : generate_prime_rel 5 19 :=
    ⟨19, List.replicate 40 2, by decide, by decide, by decide, by decide, by decide, by decide⟩
  exact ⟨by norm_num, hrel, claim8_generate_prime (by norm_num) hrel⟩

/-- C9: the decoder never examines byte 0 of the encoded message: two
inputs agreeing from byte 1 on decode identically (same
success/failure, same recovered message), for every `k`. -/
theorem claim9_unpad_ignores_leading_byte (k : ℕ) (em em' : List ℕ)
    (h : em.drop 1 = em'.drop 1) :
    rsa_oaep_unpad em k = rsa_oaep_unpad em' k :=
  rsa_oaep_unpad_ext k h

theorem claim9_witness :
    (0 :: List.replicate 65 7).drop 1 = (255 :: List.replicate 65 7).drop 1 ∧
    rsa_oaep_unpad (0 :: List.replicate 65 7) 66 =
      rsa_oaep_unpad (255 :: List.replicate 65 7) 66 :=
  ⟨by decide, claim9_unpad_ignores_leading_byte 66 _ _ (by decide)⟩

/-- C10: the encoded message starts with the structural zero byte, so
its big-endian value is below `256^(k-1) ≤ n` when `k` is the byte
length of the modulus; hence the integer fed to the signing
exponentiation lies in `[0, n)` and the verifying exponentiation
recovers it exactly. -/
theorem claim10_em_value_below_modulus {p q e d : ℕ} (M seed : List ℕ)
    (hp : Nat.Prime p) (hq : Nat.Prime q) (hpq : p ≠ q)
    (hed : e * d ≡ 1 [MOD (p - 1) * (q - 1)])
    (hseed : seed.length = 32) (hseedB : ∀ b ∈ seed, b < 256)
    (hMB : ∀ b ∈ M, b < 256)
    (hcap : M.length + 66 ≤ sizeInBase256 (p * q)) :
    padEM M (sizeInBase256 (p * q)) seed
      = 0 :: (padEM M (sizeInBase256 (p * q)) seed).drop 1 ∧
    beBytesToNat (padEM M (sizeInBase256 (p * q)) seed)
      < 256 ^ (sizeInBase256 (p * q) - 1) ∧
    beBytesToNat (padEM M (sizeInBase256 (p * q)) seed) < p * q ∧
    powMod
      (powMod (beBytesToNat (padEM M (sizeInBase256 (p * q)) seed)) d (p * q))
      e (p * q)
      = beBytesToNat (padEM M (sizeInBase256 (p * q)) seed) := by
  have hn1 : 1 ≤ p * q :=
    le_trans (by norm_num) (Nat.mul_le_mul hp.two_le hq.two_le)
  have h1 : beBytesToNat (padEM M (sizeInBase256 (p * q)) seed)
      < 256 ^ (sizeInBase256 (p * q) - 1) := padEM_value_lt hseed hseedB hMB hcap
  have h2 : beBytesToNat (padEM M (sizeInBase256 (p * q)) seed) < p * q := by
    have := (sizeInBase256_bounds hn1).1
    omega
  exact ⟨padEM_head _ _ _, h1, h2, rsa_sign_verify_value hp hq hpq hed h2⟩

set_option maxRecDepth 10000 in
theorem claim10_witness :
    Nat.Prime certP ∧ Nat.Prime certQ ∧ certP ≠ certQ ∧
    65537 * certD ≡ 1 [MOD (certP - 1) * (certQ - 1)] ∧
    ([] : List ℕ).length + 66 ≤ sizeInBase256 (certP * certQ) ∧
    beBytesToNat (padEM [] (sizeInBase256 (certP * certQ)) (List.replicate 32 0))
      < certP * certQ :=
  ⟨certP_prime, certQ_prime, cert_p_ne_q, cert_ed_inverse,
    by have := cert_modulus_bytes; simpa using by omega,
    (claim10_em_value_below_modulus [] (List.replicate 32 0) certP_prime certQ_prime
      cert_p_ne_q cert_ed_inverse (by decide) (by decide) (by decide)
      (by have := cert_modulus_bytes; simpa using by omega)).2.2.1⟩

end RsaSign
